import Mathlib

/-
Formal model of the flowzero-orders CLI (src/main.py).

The program's calendar arithmetic (datetime.date, timedelta(days=1),
dateutil.relativedelta(months=n)) is embedded as explicit functions over a
year/month/day record of naturals; toOrdinal mirrors date.toordinal()
(proleptic Gregorian day count, 0001-01-01 = day 1), and the month table
mirrors the cumulative day table used by the datetime module.  Remote I/O
(catalog search, order POST, artifact downloads, S3/local object stores)
is embedded by passing responses and store contents as explicit values.
-/

/-- Calendar date, mirroring the year/month/day fields of datetime.date. -/
structure Date where
  y : Nat
  m : Nat
  d : Nat
deriving DecidableEq

/-- Gregorian leap-year rule, as in the datetime module. -/
def isLeap (y : Nat) : Bool :=
  (y % 4 == 0 && y % 100 != 0) || y % 400 == 0

/-- Length of month m of year y. -/
def daysInMonth (y m : Nat) : Nat :=
  if m = 2 then (if isLeap y then 29 else 28)
  else if m = 4 ∨ m = 6 ∨ m = 9 ∨ m = 11 then 30
  else 31

/-- Cumulative days before month m in a non-leap year (datetime's month
table, extended at 13 with the full year for convenience). -/
def monthTable : Nat → Nat
  | 1 => 0
  | 2 => 31
  | 3 => 59
  | 4 => 90
  | 5 => 120
  | 6 => 151
  | 7 => 181
  | 8 => 212
  | 9 => 243
  | 10 => 273
  | 11 => 304
  | 12 => 334
  | 13 => 365
  | _ => 0

/-- Days before month m of year y. -/
def daysBeforeMonth (y m : Nat) : Nat :=
  monthTable m + (if 3 ≤ m ∧ isLeap y then 1 else 0)

/-- Days before January 1 of year y (proleptic Gregorian). -/
def daysBeforeYear (y : Nat) : Nat :=
  365 * (y - 1) + (y - 1) / 4 - (y - 1) / 100 + (y - 1) / 400

/-- date.toordinal(): day number with 0001-01-01 = 1. -/
def toOrdinal (dt : Date) : Nat :=
  daysBeforeYear dt.y + daysBeforeMonth dt.y dt.m + dt.d

/-- A structurally valid calendar date (what datetime.date can hold,
ignoring the year-9999 ceiling, which no claim touches). -/
def Valid (dt : Date) : Prop :=
  1 ≤ dt.y ∧ 1 ≤ dt.m ∧ dt.m ≤ 12 ∧ 1 ≤ dt.d ∧ dt.d ≤ daysInMonth dt.y dt.m

instance (dt : Date) : Decidable (Valid dt) :=
  inferInstanceAs (Decidable (1 ≤ dt.y ∧ 1 ≤ dt.m ∧ dt.m ≤ 12 ∧ 1 ≤ dt.d ∧ dt.d ≤ daysInMonth dt.y dt.m))

/-- Calendar successor of a date (datetime date + timedelta(days=1)). -/
def nextDay (dt : Date) : Date :=
  if dt.d < daysInMonth dt.y dt.m then ⟨dt.y, dt.m, dt.d + 1⟩
  else if dt.m < 12 then ⟨dt.y, dt.m + 1, 1⟩
  else ⟨dt.y + 1, 1, 1⟩

/-- Calendar predecessor of a date (datetime date - timedelta(days=1)). -/
def prevDay (dt : Date) : Date :=
  if 1 < dt.d then ⟨dt.y, dt.m, dt.d - 1⟩
  else if 1 < dt.m then ⟨dt.y, dt.m - 1, daysInMonth dt.y (dt.m - 1)⟩
  else ⟨dt.y - 1, 12, 31⟩

/-- date - timedelta(days=k), as k calendar-day steps backwards. -/
def subDays : Date → Nat → Date
  | dt, 0 => dt
  | dt, k + 1 => subDays (prevDay dt) k

/-- dateutil relativedelta(months=mm) addition: advance the year/month and
clamp the day-of-month to the length of the resulting month. -/
def addMonths (dt : Date) (mm : Nat) : Date :=
  ⟨dt.y + (dt.m - 1 + mm) / 12, (dt.m - 1 + mm) % 12 + 1,
    min dt.d (daysInMonth (dt.y + (dt.m - 1 + mm) / 12) ((dt.m - 1 + mm) % 12 + 1))⟩

/-- Field-lexicographic strict order on dates (how Python compares datetimes). -/
def DateLex (a b : Date) : Prop :=
  a.y < b.y ∨ (a.y = b.y ∧ (a.m < b.m ∨ (a.m = b.m ∧ a.d < b.d)))

instance (a b : Date) : Decidable (DateLex a b) :=
  inferInstanceAs (Decidable (a.y < b.y ∨ (a.y = b.y ∧ (a.m < b.m ∨ (a.m = b.m ∧ a.d < b.d)))))

/-- Boolean strict comparison of dates. -/
def dateLtB (a b : Date) : Bool :=
  decide (DateLex a b)

/-- Boolean non-strict comparison of dates. -/
def dateLeB (a b : Date) : Bool :=
  a == b || dateLtB a b

/-- End of the current chunk in subdivide_date_range: the current start
advanced by max_months relativedelta months, stepped back one day, and
clipped to the overall end date. -/
def chunkEnd (endD cur : Date) (mm : Nat) : Date :=
  if dateLtB endD (prevDay (addMonths cur mm)) then endD
  else prevDay (addMonths cur mm)

/-- The while-loop of subdivide_date_range, with explicit fuel.  The source
loop terminates because every iteration advances current_start by at least
one calendar day; the fuel is an upper bound on the remaining day span. -/
def subdivideAux (mm : Nat) (endD : Date) : Nat → Date → List (Date × Date)
  | 0, _ => []
  | fuel + 1, cur =>
    if dateLeB cur endD then
      (cur, chunkEnd endD cur mm) :: subdivideAux mm endD fuel (nextDay (chunkEnd endD cur mm))
    else []

/-- subdivide_date_range(start_date, end_date, max_months) from src/main.py. -/
def subdivide_date_range (startD endD : Date) (mm : Nat) : List (Date × Date) :=
  subdivideAux mm endD (toOrdinal endD + 2 - toOrdinal startD) startD

/-- The interval list [(a1,b1),(a2,b2),...] tiles the integer range [a,b]
exactly: the first interval starts at a, every interval is nonempty and
stays within b, each following interval starts right after the previous one
ends, and the last interval ends exactly at b. -/
def covers : Nat → Nat → List (Nat × Nat) → Prop
  | a, b, [] => b + 1 = a
  | a, b, iv :: rest => iv.1 = a ∧ a ≤ iv.2 ∧ iv.2 ≤ b ∧ covers (iv.2 + 1) b rest

/-- date.weekday(): Monday = 0 .. Sunday = 6 (0001-01-01 is a Monday). -/
def weekday (dt : Date) : Nat := (toOrdinal dt + 6) % 7

/-- get_week_start_date from src/main.py: days_to_sunday = weekday + 1; a
Sunday is returned unchanged, otherwise days_to_sunday days are subtracted. -/
def get_week_start_date (dt : Date) : Date :=
  if weekday dt + 1 = 7 then dt else subDays dt (weekday dt + 1)

inductive Cadence where
  | daily
  | weekly
  | monthly
deriving DecidableEq

inductive IntervalKey where
  | day (d : Date)
  | week (d : Date)
  | month (y m : Nat)
deriving DecidableEq

/-- get_interval_key from submit_single_order (the same local function
appears in the submit and search_scenes commands): daily → the calendar
date, weekly → the date minus (weekday + 1) days unless the date is a
Sunday, monthly → the calendar year-month. -/
def get_interval_key (cad : Cadence) (dt : Date) : IntervalKey :=
  match cad with
  | .daily => .day dt
  | .weekly => .week (if weekday dt = 6 then dt else subDays dt (weekday dt + 1))
  | .monthly => .month dt.y dt.m

/-- MIN_COV_PCT from src/main.py (module constant, 98.0). -/
def MIN_COV_PCT : ℚ := 98

/-- A catalog feature as consumed by the selection loop: id, the coverage
percentage computed for it, and its acquisition timestamp split into the
calendar date (the code keeps only props["acquired"][:10], the date part)
and the time of day, which the code discards. -/
structure SceneFeature where
  fid : Nat
  cov : ℚ
  acqDate : Date
  acqTime : Nat
deriving DecidableEq

/-- The threshold filter: the loop skips a feature when
coverage_pct < MIN_COV_PCT. -/
def eligibleScenes (fs : List SceneFeature) : List SceneFeature :=
  fs.filter (fun f => ! decide (f.cov < MIN_COV_PCT))

/-- The per-key group built by the defaultdict: the eligible features whose
interval key equals the given key, in input order. -/
def sceneGroup (cad : Cadence) (key : IntervalKey) (fs : List SceneFeature) :
    List SceneFeature :=
  (eligibleScenes fs).filter (fun f => decide (get_interval_key cad f.acqDate = key))

/-- Strict comparison under the sort key (-coverage_pct, date) used by
group.sort(key=lambda x: (-x[0], x[1])). -/
def betterP (a b : SceneFeature) : Prop :=
  b.cov < a.cov ∨ (a.cov = b.cov ∧ DateLex a.acqDate b.acqDate)

instance (a b : SceneFeature) : Decidable (betterP a b) :=
  inferInstanceAs (Decidable (b.cov < a.cov ∨ (a.cov = b.cov ∧ DateLex a.acqDate b.acqDate)))

/-- First minimal element of a group under the sort key: Python's stable
sort followed by group[0] yields the earliest-positioned element with
minimal key (-coverage, date), which this left fold computes by replacing
the current best only on strict improvement. -/
def bestScene : SceneFeature → List SceneFeature → SceneFeature
  | best, [] => best
  | best, c :: rest => bestScene (if betterP c best then c else best) rest

/-- The Selector's winner for one interval key: group[0] of the sorted
group, none when the key is unpopulated. -/
def selectWinner (cad : Cadence) (key : IntervalKey) (fs : List SceneFeature) :
    Option SceneFeature :=
  match sceneGroup cad key fs with
  | [] => none
  | h :: t => some (bestScene h t)

/-- A ledger entry as written by submit_single_order on acceptance (the
order_log dict of src/main.py; mosaic_name is present only on basemap
entries). -/
structure OrderLogEntry where
  order_id : String
  aoi_name : String
  order_type : String
  mosaic_name : Option String
  start_date : Date
  end_date : Date
  num_bands : String
  product_bundle : String
  product_bundle_order : String
  clipped : Bool
  aoi_area_sqkm : ℚ
  scenes_selected : Nat
  batch_order : Bool
  batch_id : Option String
deriving DecidableEq

/-- The orders.json file as the commands see it: missing, malformed
(json.JSONDecodeError on load), or a well-formed list of entries. -/
inductive LedgerFile where
  | absent
  | corrupt
  | wellFormed (entries : List OrderLogEntry)
deriving DecidableEq

/-- log_order from src/main.py: read orders.json — a missing file or
malformed content is treated as an empty list — append the entry, and write
the whole list back.  Returns the content written. -/
def log_order (file : LedgerFile) (entry : OrderLogEntry) : List OrderLogEntry :=
  (match file with
   | .absent => []
   | .corrupt => []
   | .wellFormed l => l) ++ [entry]

/-- Insertion-ordered distinct interval keys of a candidate list (the
defaultdict iterates its keys in first-insertion order). -/
def firstKeys (cad : Cadence) : List SceneFeature → List IntervalKey → List IntervalKey
  | [], acc => acc
  | f :: rest, acc =>
    if get_interval_key cad f.acqDate ∈ acc then firstKeys cad rest acc
    else firstKeys cad rest (acc ++ [get_interval_key cad f.acqDate])

/-- The populated interval keys, in first-insertion order. -/
def sceneKeys (cad : Cadence) (fs : List SceneFeature) : List IntervalKey :=
  firstKeys cad (eligibleScenes fs) []

/-- The selected list built from scene_groups: one winner per populated
interval key, in key first-insertion order. -/
def selectedScenes (cad : Cadence) (fs : List SceneFeature) : List SceneFeature :=
  (sceneKeys cad fs).filterMap (fun k => selectWinner cad k fs)

/-- Outcome of one submit_single_order call (the result dict shapes of
src/main.py, discriminated). -/
inductive SubmitOutcome where
  | searchFailed (err : String)
  | noScenes
  | noneEligible (scenesFound : Nat)
  | dryRunReport (scenesFound scenesSelected : Nat)
  | orderRejected (status : Nat)
  | accepted (order_id : String) (scenesFound scenesSelected : Nat)
deriving DecidableEq

/-- The error string of the result dict (none on success); the two
empty-result conditions carry the source's two distinct messages. -/
def outcomeError : SubmitOutcome → Option String
  | .searchFailed e => some e
  | .noScenes => some "No cloud-free scenes found"
  | .noneEligible _ => some "No full-coverage scenes matched filter"
  | .orderRejected _ => some "Order failed"
  | _ => none

/-- The scenes_found field of the result dict. -/
def outcomeScenesFound : SubmitOutcome → Option Nat
  | .noScenes => some 0
  | .noneEligible n => some n
  | .dryRunReport n _ => some n
  | .accepted _ n _ => some n
  | _ => none

/-- submit_single_order from src/main.py, embedded as a pure function of
the remote search outcome (a SearchError message or the fetched feature
list), the order endpoint response (status code and, when 202, the created
order id), the dry-run flag, and the ledger file state.  Returns the
outcome together with the ledger file after the call. -/
def submit_single_order (searchOutcome : Except String (List SceneFeature)) (cad : Cadence)
    (dryRun : Bool) (orderResp : Nat × String) (ledger : LedgerFile)
    (gage_id : String) (start_date end_date : Date)
    (num_bands product_bundle product_bundle_order : String)
    (aoi_area_sqkm : ℚ) (batch_id : Option String) : SubmitOutcome × LedgerFile :=
  match searchOutcome with
  | .error e => (.searchFailed e, ledger)
  | .ok features =>
    if features = [] then (.noScenes, ledger)
    else
      let selected := selectedScenes cad features
      if selected = [] then (.noneEligible features.length, ledger)
      else if dryRun then (.dryRunReport features.length selected.length, ledger)
      else if orderResp.1 = 202 then
        (.accepted orderResp.2 features.length selected.length,
          .wellFormed (log_order ledger
            ⟨orderResp.2, gage_id, "PSScope", none, start_date, end_date, num_bands,
              product_bundle, product_bundle_order, true, aoi_area_sqkm, selected.length,
              true, batch_id⟩))
      else (.orderRejected orderResp.1, ledger)

/-- A downloadable artifact as the fetch loops see it after the weekly
dedup: the date and scene id parsed from its filename (which determine the
destination key) and whether its download request succeeds (status 200). -/
structure FetchArtifact where
  date_s : String
  scene_id : String
  downloadOk : Bool
deriving DecidableEq

/-- Deterministic destination key of an artifact under a path scoped by the
AOI: relative_path + "/" + date + "_" + scene_id + ".tiff". -/
def artifactKey (relPath : String) (a : FetchArtifact) : String :=
  relPath ++ "/" ++ a.date_s ++ "_" ++ a.scene_id ++ ".tiff"

/-- The destination store (S3 bucket or local directory), modeled by the
set of keys present, as a duplicate-free growing list. -/
def putKey (store : List String) (k : String) : List String :=
  if k ∈ store then store else store ++ [k]

/-- One artifact step of batch_check_status: unless --overwrite is given,
a destination key that already exists is skipped before any transfer;
otherwise the artifact is downloaded and written when the download
succeeds.  Returns the store afterwards and whether a transfer happened.
The S3 and local-filesystem branches of the source perform this same
check-then-transfer, differing only in the store backend. -/
def batchFetchOne (overwrite : Bool) (store : List String) (k : String) (ok : Bool) :
    List String × Bool :=
  if !overwrite && decide (k ∈ store) then (store, false)
  else if ok then (putKey store k, true) else (store, false)

/-- The artifact loop of batch_check_status over one successful order:
processes artifacts in order, counting performed transfers. -/
def batchFetchRun (overwrite : Bool) (relPath : String) (store : List String)
    (arts : List FetchArtifact) : List String × Nat :=
  arts.foldl
    (fun acc a =>
      let s := batchFetchOne overwrite acc.1 (artifactKey relPath a) a.downloadOk
      (s.1, acc.2 + (if s.2 then 1 else 0)))
    (store, 0)

/-- The artifact loop of check_order_status (the single-order command):
it performs no existence check and re-transfers every artifact whose
download succeeds. -/
def checkStatusFetchRun (relPath : String) (store : List String)
    (arts : List FetchArtifact) : List String × Nat :=
  arts.foldl
    (fun acc a =>
      if a.downloadOk then (putKey acc.1 (artifactKey relPath a), acc.2 + 1)
      else (acc.1, acc.2))
    (store, 0)

/-- The --num-bands choice of the submit, search_scenes and batch_submit
commands. -/
inductive NumBands where
  | four_bands
  | eight_bands
deriving DecidableEq

/-- Product bundle resolution of the submit command: explicit override >
four-band default > year-conditional eight-band default, switching at start
year 2021. -/
def resolveBundleSubmit (bundle : Option String) (numBands : NumBands) (startYear : Nat) :
    String :=
  match bundle with
  | some b => b
  | none =>
    match numBands with
    | .four_bands => "ortho_analytic_4b_sr"
    | .eight_bands =>
      if 2021 ≤ startYear then "ortho_analytic_8b_sr" else "ortho_analytic_4b_sr"

/-- Product bundle resolution of the search_scenes command: same precedence,
but the pre-cutoff eight-band default is "analytic_sr_udm2". -/
def resolveBundleSearchScenes (bundle : Option String) (numBands : NumBands)
    (startYear : Nat) : String :=
  match bundle with
  | some b => b
  | none =>
    match numBands with
    | .four_bands => "ortho_analytic_4b_sr"
    | .eight_bands =>
      if 2021 ≤ startYear then "ortho_analytic_8b_sr" else "analytic_sr_udm2"

/-- The search-to-order bundle crosswalk of submit and batch_submit: the
two default search bundles map to their order-time names; anything else
passes through unchanged. -/
def crosswalkBundle (pb : String) : String :=
  if pb = "ortho_analytic_4b_sr" then "analytic_sr_udm2"
  else if pb = "ortho_analytic_8b_sr" then "analytic_8b_sr_udm2"
  else pb

/-- Value of a decimal digit string read left to right; none on any
non-digit character. -/
def natFromDigits : List Char → Nat → Option Nat
  | [], acc => some acc
  | c :: rest, acc =>
    if 48 ≤ c.toNat ∧ c.toNat ≤ 57 then natFromDigits rest (acc * 10 + (c.toNat - 48))
    else none

/-- A nonempty all-digit field parsed as a natural number. -/
def parseNatField (cs : List Char) : Option Nat :=
  if cs = [] then none else natFromDigits cs 0

/-- Split a character list on the dash separator. -/
def splitOnDash : List Char → List Char → List (List Char)
  | [], acc => [acc.reverse]
  | c :: rest, acc =>
    if c = '-' then acc.reverse :: splitOnDash rest []
    else splitOnDash rest (c :: acc)

/-- Leading and trailing blanks removed (the .strip() of the source). -/
def stripSpaces (cs : List Char) : List Char :=
  ((cs.dropWhile (fun c => c = ' ')).reverse.dropWhile (fun c => c = ' ')).reverse

/-- The per-row date validation of batch_submit:
datetime.strptime(value.strip(), "%Y-%m-%d"), modeled as splitting the
stripped string on "-" into exactly three numeric fields and checking
calendar validity (strptime raises ValueError on malformed input, which
the caller turns into skipping the row). -/
def parseDateStr (s : String) : Option Date :=
  match (splitOnDash (stripSpaces s.data) []).map parseNatField with
  | [some y, some m, some d] =>
    if 1 ≤ y ∧ y ≤ 9999 ∧ 1 ≤ m ∧ m ≤ 12 ∧ 1 ≤ d ∧ d ≤ daysInMonth y m then some ⟨y, m, d⟩
    else none
  | _ => none

/-- One row of the batch_submit input table. -/
structure BatchRow where
  gage_id : String
  start_s : String
  end_s : String
deriving DecidableEq

/-- One prepared order unit (gage id plus a date sub-range). -/
structure OrderUnit where
  gage_id : String
  start_date : Date
  end_date : Date
deriving DecidableEq

/-- Expansion of one batch row: a row whose start or end date fails to
parse is skipped; otherwise its range is subdivided and one order unit is
produced per chunk. -/
def expandRow (maxMonths : Nat) (r : BatchRow) : List OrderUnit :=
  match parseDateStr r.start_s, parseDateStr r.end_s with
  | some sd, some ed =>
    (subdivide_date_range sd ed maxMonths).map (fun c => ⟨r.gage_id, c.1, c.2⟩)
  | _, _ => []

/-- The order-preparation loop of batch_submit over all rows, in order. -/
def prepare_batch_orders (maxMonths : Nat) (rows : List BatchRow) : List OrderUnit :=
  rows.flatMap (expandRow maxMonths)

/-- The rows skipped with a warning (unparsable start or end date). -/
def skipped_batch_rows (rows : List BatchRow) : List String :=
  (rows.filter
      (fun r => (parseDateStr r.start_s).isNone || (parseDateStr r.end_s).isNone)).map
    (fun r => r.gage_id)

/-- The order metadata consulted by check_order_status before fetching. -/
structure OrderMeta where
  aoi_name : String
  mosaic_name : String
  order_type : String
  num_bands : String
  product_bundle : Option String
deriving DecidableEq

/-- The ledger lookup of check_order_status: the variables start at the
UnknownAOI/UnknownMosaic/Unknown/four_bands defaults; a missing file keeps
them; an unreadable file prints a warning and keeps them (the exception is
caught, the command continues); a well-formed file fills them from the
matching entry with per-field fallbacks (no match leaves the defaults,
with the "unknown_mosaic" fallback).  The aoi-name normalization regex
applied downstream is orthogonal to ledger handling and is not modeled. -/
def check_order_status_meta (file : LedgerFile) (oid : String) : OrderMeta :=
  match file with
  | .absent => ⟨"UnknownAOI", "UnknownMosaic", "Unknown", "four_bands", none⟩
  | .corrupt => ⟨"UnknownAOI", "UnknownMosaic", "Unknown", "four_bands", none⟩
  | .wellFormed l =>
    match l.find? (fun e => e.order_id == oid) with
    | none => ⟨"UnknownAOI", "unknown_mosaic", "Unknown", "four_bands", none⟩
    | some e =>
      ⟨e.aoi_name, (e.mosaic_name).getD "unknown_mosaic", e.order_type, e.num_bands,
        e.product_bundle⟩

/-- The ledger read of batch_check_status: a missing orders.json or a
json.JSONDecodeError makes the command print an error and return before
any order is processed; only a well-formed ledger proceeds. -/
def batch_check_status_read (file : LedgerFile) : Except String (List OrderLogEntry) :=
  match file with
  | .absent => .error "orders.json not found"
  | .corrupt => .error "Error reading orders.json"
  | .wellFormed l => .ok l

theorem isLeap_iff (y : Nat) :
    isLeap y = true ↔ ((y % 4 = 0 ∧ y % 100 ≠ 0) ∨ y % 400 = 0) := by
  simp [isLeap, Bool.or_eq_true, Bool.and_eq_true, beq_iff_eq, bne_iff_ne]

theorem daysInMonth_pos (y m : Nat) : 1 ≤ daysInMonth y m := by
  unfold daysInMonth
  split
  · split <;> omega
  · split <;> omega

theorem daysInMonth_le (y m : Nat) : daysInMonth y m ≤ 31 := by
  unfold daysInMonth
  split
  · split <;> omega
  · split <;> omega

/-- Month-table recurrence: days before month m+1 equals days before month m
plus the length of month m, for months 1..12. -/
theorem daysBeforeMonth_succ (y m : Nat) (h1 : 1 ≤ m) (h2 : m ≤ 12) :
    daysBeforeMonth y (m + 1) = daysBeforeMonth y m + daysInMonth y m := by
  interval_cases m <;>
    simp only [daysBeforeMonth, monthTable, daysInMonth] <;>
    cases h : isLeap y <;> simp [h]

theorem daysBeforeMonth_mono (y : Nat) {a b : Nat} (h1 : 1 ≤ a) (hab : a ≤ b) (h2 : b ≤ 13) :
    daysBeforeMonth y a ≤ daysBeforeMonth y b := by
  induction b with
  | zero => omega
  | succ k ih =>
    rcases Nat.lt_or_ge a (k + 1) with h | h
    · have hk1 : 1 ≤ k := by omega
      have hstep := daysBeforeMonth_succ y k hk1 (by omega)
      have hik := ih (by omega) (by omega)
      omega
    · have hak : a = k + 1 := by omega
      subst hak
      exact le_refl _

theorem daysBeforeMonth_13 (y : Nat) :
    daysBeforeMonth y 13 = 365 + (if isLeap y then 1 else 0) := by
  simp only [daysBeforeMonth, monthTable]
  cases h : isLeap y <;> simp [h]

theorem daysBeforeMonth_one (y : Nat) : daysBeforeMonth y 1 = 0 := by
  simp [daysBeforeMonth, monthTable]

set_option maxHeartbeats 1600000 in
theorem daysBeforeYear_succ (y : Nat) (hy : 1 ≤ y) :
    daysBeforeYear (y + 1) = daysBeforeYear y + 365 + (if isLeap y then 1 else 0) := by
  cases h : isLeap y
  · have hp : ¬ ((y % 4 = 0 ∧ y % 100 ≠ 0) ∨ y % 400 = 0) := by
      intro hc
      have hc2 := (isLeap_iff y).mpr hc
      rw [h] at hc2
      exact Bool.noConfusion hc2
    push_neg at hp
    rw [if_neg Bool.false_ne_true]
    unfold daysBeforeYear
    omega
  · have hp := (isLeap_iff y).mp h
    rw [if_pos rfl]
    unfold daysBeforeYear
    omega

/-- The length of year y links the year count to the month table at 13. -/
theorem daysBeforeYear_succ_eq (y : Nat) (hy : 1 ≤ y) :
    daysBeforeYear (y + 1) = daysBeforeYear y + daysBeforeMonth y 13 := by
  have h1 := daysBeforeYear_succ y hy
  have h2 := daysBeforeMonth_13 y
  by_cases h : isLeap y = true
  · rw [if_pos h] at h1 h2
    omega
  · rw [if_neg h] at h1 h2
    omega

theorem daysBeforeYear_le_succ (y : Nat) :
    daysBeforeYear y ≤ daysBeforeYear (y + 1) := by
  rcases Nat.eq_zero_or_pos y with rfl | hy
  · unfold daysBeforeYear
    omega
  · have := daysBeforeYear_succ y hy
    cases h : isLeap y <;> simp [h] at this <;> omega

theorem daysBeforeYear_mono {a b : Nat} (h : a ≤ b) :
    daysBeforeYear a ≤ daysBeforeYear b := by
  induction b with
  | zero =>
    have : a = 0 := by omega
    subst this
    exact le_refl _
  | succ k ih =>
    rcases Nat.lt_or_ge a (k + 1) with h2 | h2
    · exact le_trans (ih (by omega)) (daysBeforeYear_le_succ k)
    · have : a = k + 1 := by omega
      subst this
      exact le_refl _

theorem daysBeforeYear_one : daysBeforeYear 1 = 0 := by
  unfold daysBeforeYear
  omega

theorem toOrdinal_pos (dt : Date) (h : Valid dt) : 1 ≤ toOrdinal dt := by
  obtain ⟨-, -, -, h4, -⟩ := h
  unfold toOrdinal
  omega

/-- Within its year, a valid date's ordinal is below the next January 1. -/
theorem toOrdinal_lt_next_year (dt : Date) (h : Valid dt) :
    toOrdinal dt < daysBeforeYear (dt.y + 1) + 1 := by
  obtain ⟨h1, h2, h3, h4, h5⟩ := h
  have hstep := daysBeforeMonth_succ dt.y dt.m h2 h3
  have hmono := daysBeforeMonth_mono dt.y (a := dt.m + 1) (b := 13) (by omega) (by omega) (by omega)
  have h13 := daysBeforeMonth_13 dt.y
  have hs := daysBeforeYear_succ dt.y h1
  unfold toOrdinal
  cases hL : isLeap dt.y <;> simp [hL] at h13 hs <;> omega

/-- toOrdinal is strictly monotone along the field-lexicographic order. -/
theorem toOrdinal_lt_of_lex {a b : Date} (ha : Valid a) (hb : Valid b)
    (h : DateLex a b) : toOrdinal a < toOrdinal b := by
  rcases h with hy | ⟨hy, hm | ⟨hm, hd⟩⟩
  · have h1 : toOrdinal a < daysBeforeYear (a.y + 1) + 1 := toOrdinal_lt_next_year a ha
    have h2 : daysBeforeYear (a.y + 1) ≤ daysBeforeYear b.y := daysBeforeYear_mono (by omega)
    obtain ⟨hb1, hb2, hb3, hb4, hb5⟩ := hb
    unfold toOrdinal at h1 ⊢
    omega
  · obtain ⟨ha1, ha2, ha3, ha4, ha5⟩ := ha
    obtain ⟨hb1, hb2, hb3, hb4, hb5⟩ := hb
    have hstep := daysBeforeMonth_succ a.y a.m ha2 ha3
    have hmono : daysBeforeMonth a.y (a.m + 1) ≤ daysBeforeMonth a.y b.m :=
      daysBeforeMonth_mono a.y (by omega) (by omega) (by omega)
    unfold toOrdinal
    rw [← hy]
    omega
  · obtain ⟨hb1, hb2, hb3, hb4, hb5⟩ := hb
    unfold toOrdinal
    rw [← hy, ← hm]
    omega

theorem lex_trichotomy (a b : Date) : DateLex a b ∨ a = b ∨ DateLex b a := by
  cases a with
  | mk ay am ad =>
    cases b with
    | mk by2 bm bd =>
      simp only [DateLex, Date.mk.injEq]
      omega

theorem lex_irrefl (a : Date) : ¬ DateLex a a := by
  simp only [DateLex]
  omega

theorem toOrdinal_inj {a b : Date} (ha : Valid a) (hb : Valid b)
    (h : toOrdinal a = toOrdinal b) : a = b := by
  rcases lex_trichotomy a b with hl | he | hl
  · have := toOrdinal_lt_of_lex ha hb hl
    omega
  · exact he
  · have := toOrdinal_lt_of_lex hb ha hl
    omega

theorem lex_iff_toOrdinal_lt {a b : Date} (ha : Valid a) (hb : Valid b) :
    DateLex a b ↔ toOrdinal a < toOrdinal b := by
  constructor
  · exact toOrdinal_lt_of_lex ha hb
  · intro h
    rcases lex_trichotomy a b with hl | he | hl
    · exact hl
    · subst he
      omega
    · have := toOrdinal_lt_of_lex hb ha hl
      omega

theorem dateLtB_iff {a b : Date} (ha : Valid a) (hb : Valid b) :
    dateLtB a b = true ↔ toOrdinal a < toOrdinal b := by
  simp [dateLtB, lex_iff_toOrdinal_lt ha hb]

theorem dateLeB_iff {a b : Date} (ha : Valid a) (hb : Valid b) :
    dateLeB a b = true ↔ toOrdinal a ≤ toOrdinal b := by
  simp only [dateLeB, Bool.or_eq_true, beq_iff_eq, dateLtB_iff ha hb]
  constructor
  · rintro (rfl | h) <;> omega
  · intro h
    rcases Nat.lt_or_ge (toOrdinal a) (toOrdinal b) with h2 | h2
    · exact Or.inr h2
    · exact Or.inl (toOrdinal_inj ha hb (by omega))

/-- Stepping to the next day adds one to the ordinal and preserves validity. -/
theorem nextDay_spec (dt : Date) (h : Valid dt) :
    Valid (nextDay dt) ∧ toOrdinal (nextDay dt) = toOrdinal dt + 1 := by
  obtain ⟨h1, h2, h3, h4, h5⟩ := h
  unfold nextDay
  by_cases hd : dt.d < daysInMonth dt.y dt.m
  · rw [if_pos hd]
    constructor
    · simp only [Valid]
      omega
    · simp only [toOrdinal]
      omega
  · rw [if_neg hd]
    have hde : dt.d = daysInMonth dt.y dt.m := by omega
    by_cases hm : dt.m < 12
    · rw [if_pos hm]
      have hstep := daysBeforeMonth_succ dt.y dt.m h2 h3
      have hpos := daysInMonth_pos dt.y (dt.m + 1)
      constructor
      · simp only [Valid]
        omega
      · simp only [toOrdinal]
        omega
    · rw [if_neg hm]
      have hm12 : dt.m = 12 := by omega
      have hstep := daysBeforeMonth_succ dt.y 12 (by omega) (by omega)
      norm_num at hstep
      have hyl := daysBeforeYear_succ_eq dt.y h1
      have hd12 : daysInMonth dt.y 12 = 31 := by simp [daysInMonth]
      have hb1 := daysBeforeMonth_one (dt.y + 1)
      have hpos := daysInMonth_pos (dt.y + 1) 1
      constructor
      · simp only [Valid]
        omega
      · simp only [toOrdinal]
        rw [hm12] at h5 hde ⊢
        omega

/-- Stepping to the previous day subtracts one from the ordinal and preserves
validity, provided the date is not the very first representable day. -/
theorem prevDay_spec (dt : Date) (h : Valid dt) (h2 : 2 ≤ toOrdinal dt) :
    Valid (prevDay dt) ∧ toOrdinal (prevDay dt) = toOrdinal dt - 1 := by
  obtain ⟨hv1, hv2, hv3, hv4, hv5⟩ := h
  unfold prevDay
  by_cases hd : 1 < dt.d
  · rw [if_pos hd]
    constructor
    · simp only [Valid]
      omega
    · simp only [toOrdinal]
      omega
  · rw [if_neg hd]
    have hd1 : dt.d = 1 := by omega
    by_cases hm : 1 < dt.m
    · rw [if_pos hm]
      have hstep := daysBeforeMonth_succ dt.y (dt.m - 1) (by omega) (by omega)
      have hmeq : dt.m - 1 + 1 = dt.m := by omega
      rw [hmeq] at hstep
      have hpos := daysInMonth_pos dt.y (dt.m - 1)
      constructor
      · simp only [Valid]
        omega
      · simp only [toOrdinal]
        omega
    · rw [if_neg hm]
      have hm1 : dt.m = 1 := by omega
      have hb1 := daysBeforeMonth_one dt.y
      have hy2 : 2 ≤ dt.y := by
        by_contra hc
        have hy1 : dt.y = 1 := by omega
        unfold toOrdinal at h2
        rw [hy1, daysBeforeYear_one, hm1, daysBeforeMonth_one] at h2
        omega
      have hyl := daysBeforeYear_succ_eq (dt.y - 1) (by omega)
      have hyeq : dt.y - 1 + 1 = dt.y := by omega
      rw [hyeq] at hyl
      have hstep := daysBeforeMonth_succ (dt.y - 1) 12 (by omega) (by omega)
      norm_num at hstep
      have hd12 : daysInMonth (dt.y - 1) 12 = 31 := by simp [daysInMonth]
      constructor
      · simp only [Valid]
        omega
      · simp only [toOrdinal]
        rw [hm1, hb1, hd1]
        omega

/-- relativedelta month addition preserves validity. -/
theorem addMonths_valid (dt : Date) (mm : Nat) (h : Valid dt) :
    Valid (addMonths dt mm) := by
  obtain ⟨h1, h2, h3, h4, h5⟩ := h
  have hpos := daysInMonth_pos (dt.y + (dt.m - 1 + mm) / 12) ((dt.m - 1 + mm) % 12 + 1)
  simp only [addMonths, Valid]
  omega

/-- Adding at least one month moves a valid date strictly forward. -/
theorem addMonths_lex (dt : Date) (mm : Nat) (h : Valid dt) (hmm : 1 ≤ mm) :
    DateLex dt (addMonths dt mm) := by
  obtain ⟨h1, h2, h3, h4, h5⟩ := h
  simp only [addMonths, DateLex]
  omega

theorem subdivideAux_zero (mm : Nat) (endD cur : Date) :
    subdivideAux mm endD 0 cur = [] := rfl

theorem subdivideAux_succ (mm : Nat) (endD cur : Date) (k : Nat) :
    subdivideAux mm endD (k + 1) cur =
      if dateLeB cur endD then
        (cur, chunkEnd endD cur mm) :: subdivideAux mm endD k (nextDay (chunkEnd endD cur mm))
      else [] := rfl

theorem subdivide_def (startD endD : Date) (mm : Nat) :
    subdivide_date_range startD endD mm
      = subdivideAux mm endD (toOrdinal endD + 2 - toOrdinal startD) startD := rfl

theorem covers_nil (a b : Nat) : covers a b [] ↔ b + 1 = a := Iff.rfl

theorem covers_cons (a b : Nat) (iv : Nat × Nat) (rest : List (Nat × Nat)) :
    covers a b (iv :: rest) ↔ iv.1 = a ∧ a ≤ iv.2 ∧ iv.2 ≤ b ∧ covers (iv.2 + 1) b rest :=
  Iff.rfl

/-- A tiling covers exactly the points of [a,b]. -/
theorem covers_mem_iff {a b : Nat} {l : List (Nat × Nat)} (h : covers a b l) (n : Nat) :
    (a ≤ n ∧ n ≤ b) ↔ ∃ iv ∈ l, iv.1 ≤ n ∧ n ≤ iv.2 := by
  induction l generalizing a with
  | nil =>
    rw [covers_nil] at h
    simp only [List.not_mem_nil, false_and, exists_false, exists_prop]
    constructor
    · intro hc
      omega
    · intro hc
      exact absurd hc (by simp)
  | cons iv rest ih =>
    obtain ⟨h1, h2, h3, h4⟩ := h
    have ihx := ih h4
    constructor
    · rintro ⟨hn1, hn2⟩
      by_cases hc : n ≤ iv.2
      · exact ⟨iv, List.mem_cons_self iv rest, by omega, hc⟩
      · obtain ⟨jv, hj1, hj2⟩ := ihx.mp ⟨by omega, hn2⟩
        exact ⟨jv, List.mem_cons_of_mem _ hj1, hj2⟩
    · rintro ⟨jv, hj, hj2⟩
      rcases List.mem_cons.mp hj with rfl | hj3
      · omega
      · have := ihx.mpr ⟨jv, hj3, hj2⟩
        omega

/-- Every interval of a tiling of [a,b] is a nonempty subrange of [a,b]. -/
theorem covers_sub {a b : Nat} {l : List (Nat × Nat)} (h : covers a b l) :
    ∀ iv ∈ l, a ≤ iv.1 ∧ iv.1 ≤ iv.2 ∧ iv.2 ≤ b := by
  induction l generalizing a with
  | nil => simp
  | cons jv rest ih =>
    obtain ⟨h1, h2, h3, h4⟩ := h
    intro iv hm
    rcases List.mem_cons.mp hm with rfl | hm2
    · omega
    · have := ih h4 iv hm2
      omega

/-- In a tiling, two intervals containing a common point are equal. -/
theorem covers_unique {a b : Nat} {l : List (Nat × Nat)} (h : covers a b l)
    {iv jv : Nat × Nat} (hi : iv ∈ l) (hj : jv ∈ l) (n : Nat)
    (hni : iv.1 ≤ n ∧ n ≤ iv.2) (hnj : jv.1 ≤ n ∧ n ≤ jv.2) : iv = jv := by
  induction l generalizing a with
  | nil => simp at hi
  | cons kv rest ih =>
    obtain ⟨h1, h2, h3, h4⟩ := h
    rcases List.mem_cons.mp hi with rfl | hi2
    · rcases List.mem_cons.mp hj with rfl | hj2
      · rfl
      · exfalso
        have := covers_sub h4 jv hj2
        omega
    · rcases List.mem_cons.mp hj with rfl | hj2
      · exfalso
        have := covers_sub h4 iv hi2
        omega
      · exact ih h4 hi2 hj2

/-- The chunk end is valid, equals the minimum of (start + mm months - 1 day)
and the overall end, and is not earlier than the current start. -/
theorem chunkEnd_spec (endD cur : Date) (mm : Nat)
    (hc : Valid cur) (he : Valid endD) (hmm : 1 ≤ mm) :
    Valid (chunkEnd endD cur mm) ∧
    toOrdinal (chunkEnd endD cur mm)
      = min (toOrdinal (addMonths cur mm) - 1) (toOrdinal endD) ∧
    toOrdinal cur ≤ toOrdinal (addMonths cur mm) - 1 := by
  have hav := addMonths_valid cur mm hc
  have halex := addMonths_lex cur mm hc hmm
  have halt := toOrdinal_lt_of_lex hc hav halex
  have hpos := toOrdinal_pos cur hc
  have hprev := prevDay_spec (addMonths cur mm) hav (by omega)
  unfold chunkEnd
  by_cases hlt : dateLtB endD (prevDay (addMonths cur mm)) = true
  · rw [if_pos hlt]
    rw [dateLtB_iff he hprev.1] at hlt
    refine ⟨he, by omega, by omega⟩
  · rw [if_neg hlt]
    have hnlt : ¬ (toOrdinal endD < toOrdinal (prevDay (addMonths cur mm))) := by
      rw [← dateLtB_iff he hprev.1]
      exact hlt
    refine ⟨hprev.1, by omega, by omega⟩

/-- Loop invariant: from a valid current start at most one day past the end,
with sufficient fuel, the produced chunks tile the ordinal range exactly. -/
theorem subdivideAux_covers (mm : Nat) (endD : Date) (hmm : 1 ≤ mm) (he : Valid endD) :
    ∀ fuel cur, Valid cur → toOrdinal cur ≤ toOrdinal endD + 1 →
      toOrdinal endD + 2 - toOrdinal cur ≤ fuel →
      covers (toOrdinal cur) (toOrdinal endD)
        ((subdivideAux mm endD fuel cur).map (fun c => (toOrdinal c.1, toOrdinal c.2))) := by
  intro fuel
  induction fuel with
  | zero =>
    intro cur hv h1 h2
    exact absurd h1 (by omega)
  | succ k ih =>
    intro cur hv h1 h2
    rw [subdivideAux_succ]
    by_cases hg : dateLeB cur endD = true
    · have hle := (dateLeB_iff hv he).mp hg
      obtain ⟨hcv, hco, hcb⟩ := chunkEnd_spec endD cur mm hv he hmm
      have hnext := nextDay_spec (chunkEnd endD cur mm) hcv
      rw [if_pos hg, List.map_cons, covers_cons]
      dsimp only
      refine ⟨rfl, by omega, by omega, ?_⟩
      have hrec := ih (nextDay (chunkEnd endD cur mm)) hnext.1 (by omega) (by omega)
      rw [hnext.2] at hrec
      exact hrec
    · rw [if_neg hg, List.map_nil, covers_nil]
      have hnle : ¬ (toOrdinal cur ≤ toOrdinal endD) := by
        rw [← dateLeB_iff hv he]
        exact hg
      omega

/-- Every chunk produced by the loop has valid endpoints and its end is
exactly the clipped month-advanced end of its own start. -/
theorem subdivideAux_shape (mm : Nat) (endD : Date) (hmm : 1 ≤ mm) (he : Valid endD) :
    ∀ fuel cur, Valid cur →
      ∀ c ∈ subdivideAux mm endD fuel cur,
        Valid c.1 ∧ Valid c.2 ∧ c.2 = chunkEnd endD c.1 mm := by
  intro fuel
  induction fuel with
  | zero =>
    intro cur hv c hc
    rw [subdivideAux_zero] at hc
    exact absurd hc (List.not_mem_nil c)
  | succ k ih =>
    intro cur hv c hc
    rw [subdivideAux_succ] at hc
    by_cases hg : dateLeB cur endD = true
    · rw [if_pos hg] at hc
      obtain ⟨hcv, hco, hcb⟩ := chunkEnd_spec endD cur mm hv he hmm
      rcases List.mem_cons.mp hc with rfl | hc2
      · exact ⟨hv, hcv, rfl⟩
      · have hnext := nextDay_spec (chunkEnd endD cur mm) hcv
        exact ih (nextDay (chunkEnd endD cur mm)) hnext.1 c hc2
    · rw [if_neg hg] at hc
      exact absurd hc (List.not_mem_nil c)

/-- A single-day range yields exactly one single-day chunk. -/
theorem subdivide_single_day (s : Date) (mm : Nat) (hs : Valid s) (hmm : 1 ≤ mm) :
    subdivide_date_range s s mm = [(s, s)] := by
  rw [subdivide_def]
  have hfuel : toOrdinal s + 2 - toOrdinal s = 2 := by omega
  rw [hfuel]
  obtain ⟨hcv, hco, hcb⟩ := chunkEnd_spec s s mm hs hs hmm
  have hminEq : toOrdinal (chunkEnd s s mm) = toOrdinal s := by omega
  have hce : chunkEnd s s mm = s := toOrdinal_inj hcv hs hminEq
  have hnext := nextDay_spec s hs
  have hg1 : dateLeB s s = true := (dateLeB_iff hs hs).mpr (le_refl _)
  have hg2 : dateLeB (nextDay s) s = false := by
    rw [← Bool.not_eq_true]
    rw [dateLeB_iff hnext.1 hs]
    omega
  rw [show (2 : Nat) = 1 + 1 from rfl, subdivideAux_succ, hg1, if_pos rfl, hce]
  rw [show (1 : Nat) = 0 + 1 from rfl, subdivideAux_succ, hg2]
  rw [if_neg Bool.false_ne_true]

/-- C2: for start ≤ end and positive max_months, subdivide_date_range
returns inclusive sub-ranges that tile [start, end] exactly (union is the
whole range, no gaps, no overlaps — each ordinal day in the range lies in
exactly one chunk), each chunk ends one day before its own start advanced by
max_months calendar months, clipped to the overall end (so each chunk stays
strictly inside its start plus max_months months), start = end yields
exactly one single-day chunk, and the spec's concrete example evaluates as
stated. -/
theorem c2_subdivide_partition (s e : Date) (mm : Nat)
    (hs : Valid s) (he : Valid e) (hse : toOrdinal s ≤ toOrdinal e) (hmm : 1 ≤ mm) :
    covers (toOrdinal s) (toOrdinal e)
        ((subdivide_date_range s e mm).map (fun c => (toOrdinal c.1, toOrdinal c.2)))
    ∧ (∀ n, (toOrdinal s ≤ n ∧ n ≤ toOrdinal e) ↔
        ∃ c ∈ subdivide_date_range s e mm, toOrdinal c.1 ≤ n ∧ n ≤ toOrdinal c.2)
    ∧ (∀ c1 ∈ subdivide_date_range s e mm, ∀ c2 ∈ subdivide_date_range s e mm, ∀ n : Nat,
        toOrdinal c1.1 ≤ n → n ≤ toOrdinal c1.2 → toOrdinal c2.1 ≤ n → n ≤ toOrdinal c2.2 →
        c1 = c2)
    ∧ (∀ c ∈ subdivide_date_range s e mm, Valid c.1 ∧ Valid c.2
        ∧ c.2 = chunkEnd e c.1 mm ∧ toOrdinal c.2 < toOrdinal (addMonths c.1 mm))
    ∧ (s = e → subdivide_date_range s e mm = [(s, s)])
    ∧ subdivide_date_range ⟨2020, 1, 15⟩ ⟨2021, 3, 1⟩ 6 =
        [(⟨2020, 1, 15⟩, ⟨2020, 7, 14⟩), (⟨2020, 7, 15⟩, ⟨2021, 1, 14⟩),
         (⟨2021, 1, 15⟩, ⟨2021, 3, 1⟩)] := by
  have hcov := subdivideAux_covers mm e hmm he (toOrdinal e + 2 - toOrdinal s) s hs
    (by omega) (le_refl _)
  rw [← subdivide_def] at hcov
  have hshape := subdivideAux_shape mm e hmm he (toOrdinal e + 2 - toOrdinal s) s hs
  refine ⟨hcov, ?_, ?_, ?_, ?_, ?_⟩
  · intro n
    rw [covers_mem_iff hcov n]
    constructor
    · rintro ⟨iv, hm, hp⟩
      obtain ⟨c, hc, rfl⟩ := List.mem_map.mp hm
      exact ⟨c, hc, hp⟩
    · rintro ⟨c, hc, hp⟩
      exact ⟨(toOrdinal c.1, toOrdinal c.2), List.mem_map_of_mem _ hc, hp⟩
  · intro c1 h1 c2 h2 n ha hb hc hd
    have hu := covers_unique hcov (List.mem_map_of_mem _ h1) (List.mem_map_of_mem _ h2) n
      ⟨ha, hb⟩ ⟨hc, hd⟩
    have hs1 := hshape c1 h1
    have hs2 := hshape c2 h2
    have e1 : toOrdinal c1.1 = toOrdinal c2.1 := congrArg Prod.fst hu
    have e2 : toOrdinal c1.2 = toOrdinal c2.2 := congrArg Prod.snd hu
    exact Prod.ext (toOrdinal_inj hs1.1 hs2.1 e1) (toOrdinal_inj hs1.2.1 hs2.2.1 e2)
  · intro c hc
    obtain ⟨hv1, hv2, hend⟩ := hshape c hc
    obtain ⟨hcv, hco, hcb⟩ := chunkEnd_spec e c.1 mm hv1 he hmm
    have hpos := toOrdinal_pos c.1 hv1
    refine ⟨hv1, hv2, hend, ?_⟩
    rw [hend]
    omega
  · intro hseq
    subst hseq
    exact subdivide_single_day s mm hs hmm
  · decide

/-- Witness: C2 applied to a concrete single-day range. -/
theorem c2_subdivide_partition_witness :
    subdivide_date_range ⟨2022, 5, 5⟩ ⟨2022, 5, 5⟩ 6 = [(⟨2022, 5, 5⟩, ⟨2022, 5, 5⟩)] :=
  (c2_subdivide_partition ⟨2022, 5, 5⟩ ⟨2022, 5, 5⟩ 6 (by decide) (by decide) (by decide)
    (by decide)).2.2.2.2.1 rfl

/-- C10: when the start date is strictly after the end date,
subdivide_date_range returns the empty list — the loop guard fails on the
first iteration, so no error is raised and no inverted chunk is produced. -/
theorem c10_subdivide_inverted_empty (s e : Date) (mm : Nat)
    (hs : Valid s) (he : Valid e) (h : DateLex e s) :
    subdivide_date_range s e mm = [] := by
  have hlt := toOrdinal_lt_of_lex he hs h
  rw [subdivide_def]
  cases hf : toOrdinal e + 2 - toOrdinal s with
  | zero => rfl
  | succ k =>
    rw [subdivideAux_succ]
    have hg : ¬ (dateLeB s e = true) := by
      rw [dateLeB_iff hs he]
      omega
    rw [if_neg hg]

/-- Witness: C10 applied to a concrete inverted range. -/
theorem c10_subdivide_inverted_empty_witness :
    subdivide_date_range ⟨2021, 1, 1⟩ ⟨2020, 12, 31⟩ 6 = [] :=
  c10_subdivide_inverted_empty ⟨2021, 1, 1⟩ ⟨2020, 12, 31⟩ 6 (by decide) (by decide) (by decide)

theorem subDays_zero (dt : Date) : subDays dt 0 = dt := rfl

theorem subDays_succ (dt : Date) (k : Nat) : subDays dt (k + 1) = subDays (prevDay dt) k := rfl

/-- Going back k days subtracts k from the ordinal and keeps validity, as
long as the walk stays inside the representable range. -/
theorem subDays_spec : ∀ (k : Nat) (dt : Date), Valid dt → k + 1 ≤ toOrdinal dt →
    Valid (subDays dt k) ∧ toOrdinal (subDays dt k) = toOrdinal dt - k := by
  intro k
  induction k with
  | zero =>
    intro dt hv h
    rw [subDays_zero]
    exact ⟨hv, by omega⟩
  | succ n ih =>
    intro dt hv h
    have hp := prevDay_spec dt hv (by omega)
    have hrec := ih (prevDay dt) hp.1 (by omega)
    rw [subDays_succ]
    exact ⟨hrec.1, by omega⟩

/-- C3: the weekly bucket of a date is the preceding Sunday — the result is
a valid date, falls on a Sunday, is not later than the input, lies within
six days of it, every Sunday maps to itself, the Selector's weekly interval
key uses exactly this date, and the spec's concrete example holds
(2024-03-14, a Thursday, maps to 2024-03-10). -/
theorem c3_week_start (dt : Date) (hv : Valid dt) (h7 : 7 ≤ toOrdinal dt) :
    Valid (get_week_start_date dt)
    ∧ weekday (get_week_start_date dt) = 6
    ∧ toOrdinal (get_week_start_date dt) ≤ toOrdinal dt
    ∧ toOrdinal dt - toOrdinal (get_week_start_date dt) ≤ 6
    ∧ (∀ d2 : Date, weekday d2 = 6 → get_week_start_date d2 = d2)
    ∧ get_interval_key Cadence.weekly dt = IntervalKey.week (get_week_start_date dt)
    ∧ get_week_start_date ⟨2024, 3, 14⟩ = ⟨2024, 3, 10⟩
    ∧ weekday ⟨2024, 3, 14⟩ = 3 := by
  have hwd : weekday dt < 7 := Nat.mod_lt _ (by omega)
  by_cases h6 : weekday dt = 6
  · have hws : get_week_start_date dt = dt := by
      simp [get_week_start_date, h6]
    rw [hws]
    refine ⟨hv, h6, le_refl _, by omega, ?_, ?_, by decide, by decide⟩
    · intro d2 hd2
      simp [get_week_start_date, hd2]
    · simp [get_interval_key, h6, hws]
  · have hne : ¬ (weekday dt + 1 = 7) := by omega
    have hws : get_week_start_date dt = subDays dt (weekday dt + 1) := by
      simp [get_week_start_date, hne]
    have hsub := subDays_spec (weekday dt + 1) dt hv (by omega)
    have hwd6 : weekday (subDays dt (weekday dt + 1)) = 6 := by
      have ho := hsub.2
      simp only [weekday] at ho h6 ⊢
      omega
    rw [hws]
    refine ⟨hsub.1, hwd6, by omega, by omega, ?_, ?_, by decide, by decide⟩
    · intro d2 hd2
      simp [get_week_start_date, hd2]
    · simp [get_interval_key, h6]

/-- Witness: C3 applied to the spec's concrete Thursday. -/
theorem c3_week_start_witness :
    get_week_start_date ⟨2024, 3, 14⟩ = ⟨2024, 3, 10⟩ ∧ weekday ⟨2024, 3, 14⟩ = 3 :=
  ⟨(c3_week_start ⟨2024, 3, 14⟩ (by decide) (by decide)).2.2.2.2.2.2.1,
   (c3_week_start ⟨2024, 3, 14⟩ (by decide) (by decide)).2.2.2.2.2.2.2⟩

theorem lex_trans {a b c : Date} (h1 : DateLex a b) (h2 : DateLex b c) : DateLex a c := by
  cases a with
  | mk ay am ad =>
    cases b with
    | mk by2 bm bd =>
      cases c with
      | mk cy cm cd =>
        simp only [DateLex] at *
        omega

theorem bestScene_nil (b : SceneFeature) : bestScene b [] = b := rfl

theorem bestScene_cons (b c : SceneFeature) (rest : List SceneFeature) :
    bestScene b (c :: rest) = bestScene (if betterP c b then c else b) rest := rfl

theorem betterP_irrefl (a : SceneFeature) : ¬ betterP a a := by
  unfold betterP
  rintro (h | ⟨-, h⟩)
  · exact lt_irrefl _ h
  · exact lex_irrefl _ h

theorem betterP_trans {a b c : SceneFeature} (h1 : betterP a b) (h2 : betterP b c) :
    betterP a c := by
  unfold betterP at *
  rcases h1 with h1 | ⟨h1e, h1l⟩ <;> rcases h2 with h2 | ⟨h2e, h2l⟩
  · exact Or.inl (lt_trans h2 h1)
  · rw [h2e] at h1
    exact Or.inl h1
  · rw [← h1e] at h2
    exact Or.inl h2
  · exact Or.inr ⟨h1e.trans h2e, lex_trans h1l h2l⟩

/-- If c does not strictly precede b but strictly precedes r, then b
strictly precedes r (negative transitivity of the sort-key order). -/
theorem betterP_neg_trans {c b r : SceneFeature} (h1 : ¬ betterP c b) (h2 : betterP c r) :
    betterP b r := by
  unfold betterP at *
  push_neg at h1
  obtain ⟨h1a, h1b⟩ := h1
  rcases h2 with h2 | ⟨h2e, h2l⟩
  · exact Or.inl (lt_of_lt_of_le h2 h1a)
  · rcases lt_or_eq_of_le h1a with hlt | heq
    · rw [h2e] at hlt
      exact Or.inl hlt
    · have hnl := h1b heq
      rcases lex_trichotomy c.acqDate b.acqDate with hl | he | hl
      · exact absurd hl hnl
      · refine Or.inr ⟨heq.symm.trans h2e, ?_⟩
        rw [← he]
        exact h2l
      · exact Or.inr ⟨heq.symm.trans h2e, lex_trans hl h2l⟩

/-- The sort-key order is total on features that do not tie on both
coverage and acquisition date. -/
theorem betterP_total (a b : SceneFeature)
    (h : a.cov ≠ b.cov ∨ a.acqDate ≠ b.acqDate) : betterP a b ∨ betterP b a := by
  unfold betterP
  rcases lt_trichotomy a.cov b.cov with hc | hc | hc
  · exact Or.inr (Or.inl hc)
  · rcases h with h | h
    · exact absurd hc h
    · rcases lex_trichotomy a.acqDate b.acqDate with hl | hl | hl
      · exact Or.inl (Or.inr ⟨hc, hl⟩)
      · exact absurd hl h
      · exact Or.inr (Or.inr ⟨hc.symm, hl⟩)
  · exact Or.inl (Or.inl hc)

theorem bestScene_mem : ∀ (t : List SceneFeature) (b : SceneFeature), bestScene b t ∈ b :: t := by
  intro t
  induction t with
  | nil =>
    intro b
    rw [bestScene_nil]
    exact List.mem_cons_self b []
  | cons c rest ih =>
    intro b
    rw [bestScene_cons]
    rcases List.mem_cons.mp (ih (if betterP c b then c else b)) with he | ht
    · rw [he]
      by_cases hb : betterP c b
      · rw [if_pos hb]
        exact List.mem_cons_of_mem b (List.mem_cons_self c rest)
      · rw [if_neg hb]
        exact List.mem_cons_self b (c :: rest)
    · exact List.mem_cons_of_mem b (List.mem_cons_of_mem c ht)

/-- No element of the group strictly precedes the fold's result. -/
theorem bestScene_not_better : ∀ (t : List SceneFeature) (b f : SceneFeature),
    f ∈ b :: t → ¬ betterP f (bestScene b t) := by
  intro t
  induction t with
  | nil =>
    intro b f hf
    rw [bestScene_nil]
    rcases List.mem_cons.mp hf with rfl | h
    · exact betterP_irrefl f
    · exact absurd h (List.not_mem_nil f)
  | cons c rest ih =>
    intro b f hf
    rw [bestScene_cons]
    by_cases hb : betterP c b
    · rw [if_pos hb]
      rcases List.mem_cons.mp hf with heq | hf2
      · intro hcontra
        rw [heq] at hcontra
        exact ih c c (List.mem_cons_self c rest) (betterP_trans hb hcontra)
      · rcases List.mem_cons.mp hf2 with heq | hf3
        · rw [heq]
          exact ih c c (List.mem_cons_self c rest)
        · exact ih c f (List.mem_cons_of_mem c hf3)
    · rw [if_neg hb]
      rcases List.mem_cons.mp hf with heq | hf2
      · rw [heq]
        exact ih b b (List.mem_cons_self b rest)
      · rcases List.mem_cons.mp hf2 with heq | hf3
        · intro hcontra
          rw [heq] at hcontra
          exact ih b b (List.mem_cons_self b rest) (betterP_neg_trans hb hcontra)
        · exact ih b f (List.mem_cons_of_mem b hf3)

theorem selectWinner_none_iff (cad : Cadence) (key : IntervalKey) (fs : List SceneFeature) :
    selectWinner cad key fs = none ↔ sceneGroup cad key fs = [] := by
  unfold selectWinner
  cases sceneGroup cad key fs <;> simp

/-- The winner is a member of its group and is minimal under the sort key. -/
theorem selectWinner_spec (cad : Cadence) (key : IntervalKey) (fs : List SceneFeature)
    {w : SceneFeature} (hw : selectWinner cad key fs = some w) :
    w ∈ sceneGroup cad key fs ∧ ∀ f ∈ sceneGroup cad key fs, ¬ betterP f w := by
  unfold selectWinner at hw
  cases hg : sceneGroup cad key fs with
  | nil =>
    rw [hg] at hw
    exact Option.noConfusion hw
  | cons h t =>
    rw [hg] at hw
    have hww : bestScene h t = w := by
      injection hw
    rw [← hww]
    exact ⟨bestScene_mem t h, fun f hf => bestScene_not_better t h f hf⟩

theorem sceneGroup_perm (cad : Cadence) (key : IntervalKey) {fs fs' : List SceneFeature}
    (h : fs.Perm fs') : (sceneGroup cad key fs).Perm (sceneGroup cad key fs') :=
  List.Perm.filter _ (List.Perm.filter _ h)

/-- Without (coverage, date) ties inside the group, the winner is invariant
under permutations of the candidate list. -/
theorem selectWinner_perm (cad : Cadence) (key : IntervalKey) {fs fs' : List SceneFeature}
    (hp : fs.Perm fs')
    (hnt : (sceneGroup cad key fs).Pairwise (fun a b => a.cov ≠ b.cov ∨ a.acqDate ≠ b.acqDate)) :
    selectWinner cad key fs = selectWinner cad key fs' := by
  have hgp : (sceneGroup cad key fs).Perm (sceneGroup cad key fs') :=
    sceneGroup_perm cad key hp
  cases hw : selectWinner cad key fs with
  | none =>
    rw [selectWinner_none_iff] at hw
    rw [hw] at hgp
    have h2 : sceneGroup cad key fs' = [] := List.Perm.eq_nil hgp.symm
    exact ((selectWinner_none_iff cad key fs').mpr h2).symm
  | some w =>
    have hspec := selectWinner_spec cad key fs hw
    cases hw2 : selectWinner cad key fs' with
    | none =>
      rw [selectWinner_none_iff] at hw2
      rw [hw2] at hgp
      have h2 : sceneGroup cad key fs = [] := List.Perm.eq_nil hgp
      rw [h2] at hspec
      exact absurd hspec.1 (List.not_mem_nil w)
    | some w2 =>
      have hspec2 := selectWinner_spec cad key fs' hw2
      by_cases heq : w = w2
      · rw [heq]
      · exfalso
        have hw2in1 : w2 ∈ sceneGroup cad key fs := (List.Perm.mem_iff hgp).mpr hspec2.1
        have hwin2 : w ∈ sceneGroup cad key fs' := (List.Perm.mem_iff hgp).mp hspec.1
        have hnb1 : ¬ betterP w2 w := hspec.2 w2 hw2in1
        have hnb2 : ¬ betterP w w2 := hspec2.2 w hwin2
        have hsymm : Symmetric (fun a b : SceneFeature =>
            a.cov ≠ b.cov ∨ a.acqDate ≠ b.acqDate) := fun a b h => h.imp Ne.symm Ne.symm
        have hR := List.Pairwise.forall hsymm hnt hspec.1 hw2in1 heq
        rcases betterP_total w w2 hR with h | h
        · exact hnb2 h
        · exact hnb1 h

/-- C1 (amended): for every candidate list, cadence, and interval key, a
winner yielded for a key belongs to that key's group of threshold-passing
candidates, has coverage_pct at least every sibling's, and has the earliest
acquisition DATE among the coverage-maximal siblings (the code compares
only the date part of the acquisition timestamp, not the full timestamp);
the winner is invariant under permutations of the candidate list provided
no two candidates in the group tie on both coverage and acquisition date;
and a key yields exactly one winner precisely when its group is populated. -/
theorem c1_selector_winner (cad : Cadence) (key : IntervalKey) (fs : List SceneFeature)
    (w : SceneFeature) (hw : selectWinner cad key fs = some w) :
    w ∈ sceneGroup cad key fs
    ∧ (∀ f ∈ sceneGroup cad key fs, f.cov ≤ w.cov)
    ∧ (∀ f ∈ sceneGroup cad key fs, f.cov = w.cov → ¬ DateLex f.acqDate w.acqDate)
    ∧ (∀ fs' : List SceneFeature, fs.Perm fs' →
        (sceneGroup cad key fs).Pairwise (fun a b => a.cov ≠ b.cov ∨ a.acqDate ≠ b.acqDate) →
        selectWinner cad key fs' = some w)
    ∧ (∀ gs : List SceneFeature,
        sceneGroup cad key gs ≠ [] ↔ (selectWinner cad key gs).isSome) := by
  obtain ⟨hmem, hmin⟩ := selectWinner_spec cad key fs hw
  refine ⟨hmem, ?_, ?_, ?_, ?_⟩
  · intro f hf
    have hnb := hmin f hf
    unfold betterP at hnb
    push_neg at hnb
    exact hnb.1
  · intro f hf hcov
    have hnb := hmin f hf
    unfold betterP at hnb
    push_neg at hnb
    exact hnb.2 hcov
  · intro fs' hp hnt
    rw [← selectWinner_perm cad key hp hnt]
    exact hw
  · intro gs
    rw [ne_eq, ← selectWinner_none_iff cad key gs]
    cases selectWinner cad key gs <;> simp

/-- Witness: C1 (amended) applied to a concrete two-candidate list. -/
theorem c1_selector_winner_witness :
    SceneFeature.mk 1 100 ⟨2024, 1, 1⟩ 0 ∈
      sceneGroup Cadence.daily (IntervalKey.day ⟨2024, 1, 1⟩)
        [SceneFeature.mk 1 100 ⟨2024, 1, 1⟩ 0, SceneFeature.mk 2 99 ⟨2024, 1, 1⟩ 0] :=
  (c1_selector_winner Cadence.daily (IntervalKey.day ⟨2024, 1, 1⟩)
    [SceneFeature.mk 1 100 ⟨2024, 1, 1⟩ 0, SceneFeature.mk 2 99 ⟨2024, 1, 1⟩ 0]
    (SceneFeature.mk 1 100 ⟨2024, 1, 1⟩ 0) (by decide)).1

/-- C1 counterexample: two candidates tie on maximum coverage with the same
acquisition date but different times of day; the one with the LATER
timestamp wins when listed first, and reversing the input order changes the
selected winner — refuting both the earliest-acquisition-timestamp
tie-break and the permutation invariance of the claim as stated. -/
theorem c1_selector_counterexample :
    (SceneFeature.mk 2 100 ⟨2024, 1, 1⟩ 5).acqTime
        < (SceneFeature.mk 1 100 ⟨2024, 1, 1⟩ 10).acqTime
    ∧ (SceneFeature.mk 2 100 ⟨2024, 1, 1⟩ 5).cov = (SceneFeature.mk 1 100 ⟨2024, 1, 1⟩ 10).cov
    ∧ List.Perm [SceneFeature.mk 1 100 ⟨2024, 1, 1⟩ 10, SceneFeature.mk 2 100 ⟨2024, 1, 1⟩ 5]
        [SceneFeature.mk 2 100 ⟨2024, 1, 1⟩ 5, SceneFeature.mk 1 100 ⟨2024, 1, 1⟩ 10]
    ∧ selectWinner Cadence.daily (IntervalKey.day ⟨2024, 1, 1⟩)
        [SceneFeature.mk 1 100 ⟨2024, 1, 1⟩ 10, SceneFeature.mk 2 100 ⟨2024, 1, 1⟩ 5]
        = some (SceneFeature.mk 1 100 ⟨2024, 1, 1⟩ 10)
    ∧ selectWinner Cadence.daily (IntervalKey.day ⟨2024, 1, 1⟩)
        [SceneFeature.mk 2 100 ⟨2024, 1, 1⟩ 5, SceneFeature.mk 1 100 ⟨2024, 1, 1⟩ 10]
        = some (SceneFeature.mk 2 100 ⟨2024, 1, 1⟩ 5)
    ∧ selectWinner Cadence.daily (IntervalKey.day ⟨2024, 1, 1⟩)
          [SceneFeature.mk 1 100 ⟨2024, 1, 1⟩ 10, SceneFeature.mk 2 100 ⟨2024, 1, 1⟩ 5]
        ≠ selectWinner Cadence.daily (IntervalKey.day ⟨2024, 1, 1⟩)
          [SceneFeature.mk 2 100 ⟨2024, 1, 1⟩ 5, SceneFeature.mk 1 100 ⟨2024, 1, 1⟩ 10] := by
  exact ⟨by decide, by decide, by decide, by decide, by decide, by decide⟩

theorem firstKeys_nil (cad : Cadence) (acc : List IntervalKey) :
    firstKeys cad [] acc = acc := rfl

theorem firstKeys_cons (cad : Cadence) (f : SceneFeature) (rest : List SceneFeature)
    (acc : List IntervalKey) :
    firstKeys cad (f :: rest) acc =
      if get_interval_key cad f.acqDate ∈ acc then firstKeys cad rest acc
      else firstKeys cad rest (acc ++ [get_interval_key cad f.acqDate]) := rfl

theorem firstKeys_acc_sub (cad : Cadence) :
    ∀ (l : List SceneFeature) (acc : List IntervalKey) (k : IntervalKey),
      k ∈ acc → k ∈ firstKeys cad l acc := by
  intro l
  induction l with
  | nil =>
    intro acc k hk
    rw [firstKeys_nil]
    exact hk
  | cons f rest ih =>
    intro acc k hk
    rw [firstKeys_cons]
    by_cases hm : get_interval_key cad f.acqDate ∈ acc
    · rw [if_pos hm]
      exact ih acc k hk
    · rw [if_neg hm]
      exact ih _ k (List.mem_append_left _ hk)

/-- Every listed candidate's key appears among the collected keys. -/
theorem firstKeys_mem (cad : Cadence) :
    ∀ (l : List SceneFeature) (acc : List IntervalKey) (f : SceneFeature), f ∈ l →
      get_interval_key cad f.acqDate ∈ firstKeys cad l acc := by
  intro l
  induction l with
  | nil =>
    intro acc f hf
    exact absurd hf (List.not_mem_nil f)
  | cons g rest ih =>
    intro acc f hf
    rw [firstKeys_cons]
    rcases List.mem_cons.mp hf with heq | hf2
    · by_cases hm : get_interval_key cad g.acqDate ∈ acc
      · rw [if_pos hm, heq]
        exact firstKeys_acc_sub cad rest acc _ hm
      · rw [if_neg hm, heq]
        exact firstKeys_acc_sub cad rest _ _
          (List.mem_append_right acc (List.mem_cons_self _ []))
    · by_cases hm : get_interval_key cad g.acqDate ∈ acc
      · rw [if_pos hm]
        exact ih acc f hf2
      · rw [if_neg hm]
        exact ih _ f hf2

/-- Collected keys come from the accumulator or from some listed candidate. -/
theorem firstKeys_src (cad : Cadence) :
    ∀ (l : List SceneFeature) (acc : List IntervalKey) (k : IntervalKey),
      k ∈ firstKeys cad l acc →
      k ∈ acc ∨ ∃ f ∈ l, k = get_interval_key cad f.acqDate := by
  intro l
  induction l with
  | nil =>
    intro acc k hk
    rw [firstKeys_nil] at hk
    exact Or.inl hk
  | cons g rest ih =>
    intro acc k hk
    rw [firstKeys_cons] at hk
    by_cases hm : get_interval_key cad g.acqDate ∈ acc
    · rw [if_pos hm] at hk
      rcases ih acc k hk with h | ⟨f, hf, he⟩
      · exact Or.inl h
      · exact Or.inr ⟨f, List.mem_cons_of_mem g hf, he⟩
    · rw [if_neg hm] at hk
      rcases ih _ k hk with h | ⟨f, hf, he⟩
      · rcases List.mem_append.mp h with h2 | h2
        · exact Or.inl h2
        · rcases List.mem_cons.mp h2 with heq | hnil
          · exact Or.inr ⟨g, List.mem_cons_self g rest, heq⟩
          · exact absurd hnil (List.not_mem_nil k)
      · exact Or.inr ⟨f, List.mem_cons_of_mem g hf, he⟩

/-- The Selector's output is empty exactly when no candidate passes the
coverage threshold. -/
theorem selectedScenes_nil_iff (cad : Cadence) (fs : List SceneFeature) :
    selectedScenes cad fs = [] ↔ eligibleScenes fs = [] := by
  constructor
  · intro h
    cases he : eligibleScenes fs with
    | nil => rfl
    | cons f rest =>
      exfalso
      have hf : f ∈ eligibleScenes fs := by
        rw [he]
        exact List.mem_cons_self f rest
      have hk : get_interval_key cad f.acqDate ∈ sceneKeys cad fs :=
        firstKeys_mem cad (eligibleScenes fs) [] f hf
      have hgrp : f ∈ sceneGroup cad (get_interval_key cad f.acqDate) fs := by
        unfold sceneGroup
        rw [List.mem_filter]
        exact ⟨hf, by simp⟩
      have hne : sceneGroup cad (get_interval_key cad f.acqDate) fs ≠ [] := by
        intro hc
        rw [hc] at hgrp
        exact List.not_mem_nil f hgrp
      have hsome : (selectWinner cad (get_interval_key cad f.acqDate) fs).isSome := by
        cases hw : selectWinner cad (get_interval_key cad f.acqDate) fs with
        | none =>
          rw [selectWinner_none_iff] at hw
          exact absurd hw hne
        | some w => rfl
      obtain ⟨w, hw⟩ := Option.isSome_iff_exists.mp hsome
      have hmem : w ∈ selectedScenes cad fs := by
        unfold selectedScenes
        rw [List.mem_filterMap]
        exact ⟨_, hk, hw⟩
      rw [h] at hmem
      exact List.not_mem_nil w hmem
  · intro h
    unfold selectedScenes sceneKeys
    rw [h, firstKeys_nil]
    rfl

theorem submit_single_order_error (cad : Cadence) (dryRun : Bool) (orderResp : Nat × String)
    (ledger : LedgerFile) (g : String) (sd ed : Date) (nb pb pbo : String) (ar : ℚ)
    (bid : Option String) (e : String) :
    submit_single_order (.error e) cad dryRun orderResp ledger g sd ed nb pb pbo ar bid
      = (.searchFailed e, ledger) := rfl

theorem submit_single_order_ok (cad : Cadence) (dryRun : Bool) (orderResp : Nat × String)
    (ledger : LedgerFile) (g : String) (sd ed : Date) (nb pb pbo : String) (ar : ℚ)
    (bid : Option String) (fs : List SceneFeature) :
    submit_single_order (.ok fs) cad dryRun orderResp ledger g sd ed nb pb pbo ar bid
      = if fs = [] then (.noScenes, ledger)
        else if selectedScenes cad fs = [] then (.noneEligible fs.length, ledger)
        else if dryRun then (.dryRunReport fs.length (selectedScenes cad fs).length, ledger)
        else if orderResp.1 = 202 then
          (.accepted orderResp.2 fs.length (selectedScenes cad fs).length,
            .wellFormed (log_order ledger
              ⟨orderResp.2, g, "PSScope", none, sd, ed, nb, pb, pbo, true, ar,
                (selectedScenes cad fs).length, true, bid⟩))
        else (.orderRejected orderResp.1, ledger) := rfl

/-- C4: with a well-formed prior ledger, a ledger entry is written if and
only if the order endpoint answers 202: on acceptance exactly one entry is
appended, carrying the order id returned by the endpoint, and on a search
failure, empty search, empty selection, dry-run, or any non-202 order
response the ledger file is left completely unchanged; every entry of the
resulting ledger is either a pre-existing entry or the single entry of the
accepted order, so the ledger never records an unconfirmed order. -/
theorem c4_ledger_append_iff_accepted (so : Except String (List SceneFeature)) (cad : Cadence)
    (dry : Bool) (resp : Nat × String) (l : List OrderLogEntry)
    (g : String) (sd ed : Date) (nb pb pbo : String) (ar : ℚ) (bid : Option String)
    (S : SubmitOutcome × LedgerFile)
    (hS : S = submit_single_order so cad dry resp (.wellFormed l) g sd ed nb pb pbo ar bid) :
    (∀ oid found sel, S.1 = SubmitOutcome.accepted oid found sel →
      oid = resp.2 ∧
      S.2 = LedgerFile.wellFormed
        (l ++ [⟨oid, g, "PSScope", none, sd, ed, nb, pb, pbo, true, ar, sel, true, bid⟩]))
    ∧ ((∀ oid found sel, S.1 ≠ SubmitOutcome.accepted oid found sel) →
        S.2 = LedgerFile.wellFormed l)
    ∧ (dry = true → S.2 = LedgerFile.wellFormed l)
    ∧ (∀ l2, S.2 = LedgerFile.wellFormed l2 → ∀ x ∈ l2,
        x ∈ l ∨ ∃ found sel, S.1 = SubmitOutcome.accepted x.order_id found sel)
    ∧ (∀ fs, so = .ok fs → dry = false → fs ≠ [] → selectedScenes cad fs ≠ [] →
        (S.2 ≠ LedgerFile.wellFormed l ↔ resp.1 = 202)) := by
  rcases so with e | fs
  · rw [submit_single_order_error] at hS
    subst hS
    refine ⟨?_, ?_, ?_, ?_, ?_⟩
    · intro oid found sel h
      simp at h
    · intro _
      rfl
    · intro _
      rfl
    · intro l2 h x hx
      simp only [LedgerFile.wellFormed.injEq] at h
      rw [← h] at hx
      exact Or.inl hx
    · intro fs hfs
      exact absurd hfs (by simp)
  · rw [submit_single_order_ok] at hS
    by_cases hfs : fs = []
    · rw [if_pos hfs] at hS
      subst hS
      refine ⟨?_, ?_, ?_, ?_, ?_⟩
      · intro oid found sel h
        simp at h
      · intro _
        rfl
      · intro _
        rfl
      · intro l2 h x hx
        simp only [LedgerFile.wellFormed.injEq] at h
        rw [← h] at hx
        exact Or.inl hx
      · intro fs2 hfs2
        have : fs2 = fs := by
          injection hfs2.symm
        intro _ hne
        rw [this, hfs] at hne
        exact absurd rfl hne
    · rw [if_neg hfs] at hS
      by_cases hsel : selectedScenes cad fs = []
      · rw [if_pos hsel] at hS
        subst hS
        refine ⟨?_, ?_, ?_, ?_, ?_⟩
        · intro oid found sel h
          simp at h
        · intro _
          rfl
        · intro _
          rfl
        · intro l2 h x hx
          simp only [LedgerFile.wellFormed.injEq] at h
          rw [← h] at hx
          exact Or.inl hx
        · intro fs2 hfs2
          have hfe : fs2 = fs := by
            injection hfs2.symm
          intro _ _ hne
          rw [hfe] at hne
          exact absurd hsel hne
      · rw [if_neg hsel] at hS
        cases dry
        · rw [if_neg Bool.false_ne_true] at hS
          by_cases hresp : resp.1 = 202
          · rw [if_pos hresp] at hS
            subst hS
            refine ⟨?_, ?_, ?_, ?_, ?_⟩
            · intro oid found sel h
              simp only [SubmitOutcome.accepted.injEq] at h
              obtain ⟨h1, h2, h3⟩ := h
              subst h1
              subst h3
              exact ⟨rfl, rfl⟩
            · intro hno
              exact absurd rfl (hno resp.2 fs.length (selectedScenes cad fs).length)
            · intro hcontra
              exact Bool.noConfusion hcontra
            · intro l2 h x hx
              simp only [LedgerFile.wellFormed.injEq] at h
              rw [← h] at hx
              unfold log_order at hx
              rcases List.mem_append.mp hx with h2 | h2
              · exact Or.inl h2
              · rcases List.mem_cons.mp h2 with heq | hnil
                · right
                  refine ⟨fs.length, (selectedScenes cad fs).length, ?_⟩
                  rw [heq]
                · exact absurd hnil (List.not_mem_nil x)
            · intro fs2 _ _ _ _
              constructor
              · intro _
                exact hresp
              · intro _ hcontra
                simp only [LedgerFile.wellFormed.injEq] at hcontra
                unfold log_order at hcontra
                have := congrArg List.length hcontra
                simp at this
          · rw [if_neg hresp] at hS
            subst hS
            refine ⟨?_, ?_, ?_, ?_, ?_⟩
            · intro oid found sel h
              simp at h
            · intro _
              rfl
            · intro _
              rfl
            · intro l2 h x hx
              simp only [LedgerFile.wellFormed.injEq] at h
              rw [← h] at hx
              exact Or.inl hx
            · intro fs2 _ _ _ _
              constructor
              · intro hcontra
                exact absurd rfl hcontra
              · intro h202
                exact absurd h202 hresp
        · rw [if_pos rfl] at hS
          subst hS
          refine ⟨?_, ?_, ?_, ?_, ?_⟩
          · intro oid found sel h
            simp at h
          · intro _
            rfl
          · intro _
            rfl
          · intro l2 h x hx
            simp only [LedgerFile.wellFormed.injEq] at h
            rw [← h] at hx
            exact Or.inl hx
          · intro fs2 _ hdry
            exact absurd hdry (by simp)

/-- Witness: C4 applied to a concrete accepted submission over an empty
well-formed ledger: exactly the one confirmed entry is appended. -/
theorem c4_ledger_append_iff_accepted_witness :
    (submit_single_order (.ok [SceneFeature.mk 1 100 ⟨2024, 1, 1⟩ 0]) Cadence.daily false
        (202, "oid-1") (.wellFormed []) "g1" ⟨2024, 1, 1⟩ ⟨2024, 1, 31⟩ "four_bands" "pb"
        "pbo" 42 none).2
      = LedgerFile.wellFormed
          ([] ++ [⟨"oid-1", "g1", "PSScope", none, ⟨2024, 1, 1⟩, ⟨2024, 1, 31⟩, "four_bands",
            "pb", "pbo", true, 42, 1, true, none⟩]) :=
  ((c4_ledger_append_iff_accepted (.ok [SceneFeature.mk 1 100 ⟨2024, 1, 1⟩ 0]) Cadence.daily
      false (202, "oid-1") [] "g1" ⟨2024, 1, 1⟩ ⟨2024, 1, 31⟩ "four_bands" "pb" "pbo" 42 none
      _ rfl).1 "oid-1" 1 1 (by decide)).2

/-- C7: the two empty-result conditions of a search-and-select run are
reported as distinct outcomes: an empty search result yields the no-scenes
outcome whose result dict carries scenes_found = 0, while a nonempty search
result in which no candidate passes the coverage threshold yields the
distinct none-eligible outcome carrying the nonzero found count; the
Selector's output is empty exactly when no candidate passes the threshold;
the two outcomes differ from each other and from a search failure, and
their error strings differ. -/
theorem c7_empty_results_distinct (cad : Cadence) (dry : Bool) (resp : Nat × String)
    (led : LedgerFile) (g : String) (sd ed : Date) (nb pb pbo : String) (ar : ℚ)
    (bid : Option String) :
    (submit_single_order (.ok []) cad dry resp led g sd ed nb pb pbo ar bid).1
        = SubmitOutcome.noScenes
    ∧ outcomeScenesFound SubmitOutcome.noScenes = some 0
    ∧ (∀ fs : List SceneFeature, fs ≠ [] → eligibleScenes fs = [] →
        (submit_single_order (.ok fs) cad dry resp led g sd ed nb pb pbo ar bid).1
            = SubmitOutcome.noneEligible fs.length
          ∧ fs.length ≠ 0
          ∧ outcomeScenesFound (SubmitOutcome.noneEligible fs.length) = some fs.length)
    ∧ (∀ fs : List SceneFeature, selectedScenes cad fs = [] ↔ eligibleScenes fs = [])
    ∧ (∀ n, SubmitOutcome.noScenes ≠ SubmitOutcome.noneEligible n)
    ∧ (∀ e n, SubmitOutcome.noneEligible n ≠ SubmitOutcome.searchFailed e)
    ∧ (∀ e, SubmitOutcome.noScenes ≠ SubmitOutcome.searchFailed e)
    ∧ (∀ e, (submit_single_order (.error e) cad dry resp led g sd ed nb pb pbo ar bid).1
        = SubmitOutcome.searchFailed e)
    ∧ (∀ n, outcomeError SubmitOutcome.noScenes ≠ outcomeError (SubmitOutcome.noneEligible n)) := by
  refine ⟨?_, rfl, ?_, ?_, ?_, ?_, ?_, ?_, ?_⟩
  · rw [submit_single_order_ok, if_pos rfl]
  · intro fs hfs helig
    have hsel : selectedScenes cad fs = [] := (selectedScenes_nil_iff cad fs).mpr helig
    refine ⟨?_, ?_, rfl⟩
    · rw [submit_single_order_ok, if_neg hfs, if_pos hsel]
    · intro hlen
      exact hfs (List.length_eq_zero.mp hlen)
  · exact selectedScenes_nil_iff cad
  · intro n h
    exact SubmitOutcome.noConfusion h
  · intro e n h
    exact SubmitOutcome.noConfusion h
  · intro e h
    exact SubmitOutcome.noConfusion h
  · intro e
    rw [submit_single_order_error]
  · intro n h
    simp only [outcomeError, Option.some.injEq] at h
    exact absurd h (by decide)

/-- Witness: C7 applied to a concrete below-threshold candidate list. -/
theorem c7_empty_results_distinct_witness :
    (submit_single_order (.ok [SceneFeature.mk 1 50 ⟨2024, 1, 1⟩ 0]) Cadence.daily false
        (202, "x") (.wellFormed []) "g" ⟨2024, 1, 1⟩ ⟨2024, 1, 2⟩ "nb" "pb" "pbo" 1 none).1
        = SubmitOutcome.noneEligible 1
      ∧ (1 : Nat) ≠ 0
      ∧ outcomeScenesFound (SubmitOutcome.noneEligible 1) = some 1 :=
  (c7_empty_results_distinct Cadence.daily false (202, "x") (.wellFormed []) "g" ⟨2024, 1, 1⟩
      ⟨2024, 1, 2⟩ "nb" "pb" "pbo" 1 none).2.2.1
    [SceneFeature.mk 1 50 ⟨2024, 1, 1⟩ 0] (by decide) (by decide)

theorem putKey_mem (store : List String) (k k2 : String) (h : k ∈ store) :
    k ∈ putKey store k2 := by
  unfold putKey
  split
  · exact h
  · exact List.mem_append_left _ h

theorem putKey_self (store : List String) (k : String) : k ∈ putKey store k := by
  unfold putKey
  split
  · assumption
  · exact List.mem_append_right _ (List.mem_cons_self k [])

/-- Store keys are never removed by the batch fetch loop. -/
theorem batchFetchRun_mono (ov : Bool) (rp : String) :
    ∀ (arts : List FetchArtifact) (store : List String) (c : Nat) (k : String), k ∈ store →
      k ∈ (arts.foldl
        (fun acc a =>
          let s := batchFetchOne ov acc.1 (artifactKey rp a) a.downloadOk
          (s.1, acc.2 + (if s.2 then 1 else 0)))
        (store, c)).1 := by
  intro arts
  induction arts with
  | nil =>
    intro store c k hk
    exact hk
  | cons a rest ih =>
    intro store c k hk
    rw [List.foldl_cons]
    apply ih
    unfold batchFetchOne
    split
    · exact hk
    · split
      · exact putKey_mem store k _ hk
      · exact hk

/-- After a batch fetch run, every artifact whose download succeeds has its
destination key present in the store. -/
theorem batchFetchRun_key_present (ov : Bool) (rp : String) :
    ∀ (arts : List FetchArtifact) (store : List String) (c : Nat)
      (a : FetchArtifact), a ∈ arts → a.downloadOk = true →
      artifactKey rp a ∈ (arts.foldl
        (fun acc a =>
          let s := batchFetchOne ov acc.1 (artifactKey rp a) a.downloadOk
          (s.1, acc.2 + (if s.2 then 1 else 0)))
        (store, c)).1 := by
  intro arts
  induction arts with
  | nil =>
    intro store c a ha
    exact absurd ha (List.not_mem_nil a)
  | cons b rest ih =>
    intro store c a ha hok
    rw [List.foldl_cons]
    rcases List.mem_cons.mp ha with heq | ha2
    · subst heq
      apply batchFetchRun_mono
      unfold batchFetchOne
      split
      · next hcond =>
        simp only [Bool.and_eq_true, Bool.not_eq_eq_eq_not, Bool.not_true,
          decide_eq_true_eq] at hcond
        exact hcond.2
      · exact putKey_self _ _
    · exact ih _ _ a ha2 hok

/-- With overwrite disabled, a run over artifacts whose successful
downloads are all already present performs zero transfers and leaves the
store unchanged. -/
theorem batchFetchRun_noop (rp : String) :
    ∀ (arts : List FetchArtifact) (store : List String) (c : Nat),
      (∀ a ∈ arts, a.downloadOk = true → artifactKey rp a ∈ store) →
      arts.foldl
        (fun acc a =>
          let s := batchFetchOne false acc.1 (artifactKey rp a) a.downloadOk
          (s.1, acc.2 + (if s.2 then 1 else 0)))
        (store, c) = (store, c) := by
  intro arts
  induction arts with
  | nil =>
    intro store c _
    rfl
  | cons a rest ih =>
    intro store c hpre
    rw [List.foldl_cons]
    have hstep : batchFetchOne false store (artifactKey rp a) a.downloadOk = (store, false) := by
      unfold batchFetchOne
      cases hok : a.downloadOk
      · split
        · rfl
        · rw [if_neg Bool.false_ne_true]
      · have hk := hpre a (List.mem_cons_self a rest) hok
        rw [if_pos (by simp [hk])]
    rw [hstep]
    simp only [if_neg Bool.false_ne_true, Nat.add_zero]
    exact ih store c (fun b hb => hpre b (List.mem_cons_of_mem a hb))

/-- C5 (amended): in the batch fetch paths (batch_check_status, S3 and
local stores alike), with overwrite disabled the existence check precedes
every transfer: when every artifact's destination key already exists the
run performs zero transfers and leaves the destination set unchanged, and
running the fetch step a second time over the same artifacts performs zero
transfers and leaves the destination set unchanged.  The single-order
check_order_status path performs no such check (see the counterexample). -/
theorem c5_batch_fetch_idempotent (rp : String) (store : List String)
    (arts : List FetchArtifact) :
    batchFetchRun false rp (batchFetchRun false rp store arts).1 arts
        = ((batchFetchRun false rp store arts).1, 0)
    ∧ ((∀ a ∈ arts, artifactKey rp a ∈ store) →
        batchFetchRun false rp store arts = (store, 0)) := by
  constructor
  · unfold batchFetchRun
    apply batchFetchRun_noop
    intro a ha hok
    exact batchFetchRun_key_present false rp arts store 0 a ha hok
  · intro hpre
    unfold batchFetchRun
    apply batchFetchRun_noop
    intro a ha _
    exact hpre a ha

/-- Witness: C5 applied to a store that already holds the artifact's key. -/
theorem c5_batch_fetch_idempotent_witness :
    batchFetchRun false "p" ["p/2024_01_01_s1.tiff"] [⟨"2024_01_01", "s1", true⟩]
      = (["p/2024_01_01_s1.tiff"], 0) :=
  (c5_batch_fetch_idempotent "p" ["p/2024_01_01_s1.tiff"] [⟨"2024_01_01", "s1", true⟩]).2
    (by decide)

/-- C5 counterexample: the single-order fetch path (check_order_status)
performs no existence check; with the destination key already present it
still transfers the artifact — one transfer instead of zero — refuting the
claim that the existence check happens before every artifact transfer in
every fetch path. -/
theorem c5_fetch_counterexample :
    artifactKey "p" ⟨"2024_01_01", "s1", true⟩ ∈ ["p/2024_01_01_s1.tiff"]
    ∧ checkStatusFetchRun "p" ["p/2024_01_01_s1.tiff"] [⟨"2024_01_01", "s1", true⟩]
        = (["p/2024_01_01_s1.tiff"], 1)
    ∧ (checkStatusFetchRun "p" ["p/2024_01_01_s1.tiff"] [⟨"2024_01_01", "s1", true⟩]).2 ≠ 0 := by
  exact ⟨by decide, by decide, by decide⟩

/-- C6 (amended): in the submit (and batch_submit) resolution the
precedence explicit override > band-count default > year-conditional
default holds with cutoff year 2021 — eight-band with a pre-2021 start
resolves to the four-band search bundle, at/after 2021 to the eight-band
search bundle — and the two default search bundles crosswalk to order-time
identifiers distinct from the search-time ones, tracked as a pair.  An
explicit override, however, passes through the crosswalk unchanged
(identical identifiers), and in search_scenes the pre-cutoff eight-band
default is the order-time name "analytic_sr_udm2", not the four-band
search bundle. -/
theorem c6_bundle_resolution :
    (∀ (b : String) (nb : NumBands) (y : Nat), resolveBundleSubmit (some b) nb y = b)
    ∧ (∀ y : Nat, resolveBundleSubmit none NumBands.four_bands y = "ortho_analytic_4b_sr")
    ∧ (∀ y : Nat, y < 2021 →
        resolveBundleSubmit none NumBands.eight_bands y = "ortho_analytic_4b_sr")
    ∧ (∀ y : Nat, 2021 ≤ y →
        resolveBundleSubmit none NumBands.eight_bands y = "ortho_analytic_8b_sr")
    ∧ crosswalkBundle "ortho_analytic_4b_sr" = "analytic_sr_udm2"
    ∧ crosswalkBundle "ortho_analytic_8b_sr" = "analytic_8b_sr_udm2"
    ∧ "analytic_sr_udm2" ≠ "ortho_analytic_4b_sr"
    ∧ "analytic_8b_sr_udm2" ≠ "ortho_analytic_8b_sr"
    ∧ (∀ b : String, b ≠ "ortho_analytic_4b_sr" → b ≠ "ortho_analytic_8b_sr" →
        crosswalkBundle b = b)
    ∧ (∀ y : Nat, y < 2021 →
        resolveBundleSearchScenes none NumBands.eight_bands y = "analytic_sr_udm2") := by
  refine ⟨?_, ?_, ?_, ?_, by decide, by decide, by decide, by decide, ?_, ?_⟩
  · intro b nb y
    rfl
  · intro y
    rfl
  · intro y hy
    simp only [resolveBundleSubmit]
    rw [if_neg (by omega)]
  · intro y hy
    simp only [resolveBundleSubmit]
    rw [if_pos hy]
  · intro b h1 h2
    unfold crosswalkBundle
    rw [if_neg h1, if_neg h2]
  · intro y hy
    simp only [resolveBundleSearchScenes]
    rw [if_neg (by omega)]

/-- Witness: C6 applied at concrete years on both sides of the cutoff. -/
theorem c6_bundle_resolution_witness :
    resolveBundleSubmit none NumBands.eight_bands 2019 = "ortho_analytic_4b_sr"
    ∧ resolveBundleSubmit none NumBands.eight_bands 2022 = "ortho_analytic_8b_sr" :=
  ⟨c6_bundle_resolution.2.2.1 2019 (by decide), c6_bundle_resolution.2.2.2.1 2022 (by decide)⟩

/-- C6 counterexample: in search_scenes the eight-band request for year
2020 (before the cutoff) resolves to "analytic_sr_udm2", which is not the
lower-band-count search bundle; and an explicit override crosswalks to
itself, so its search-time and order-time identifiers are not two distinct
identifiers. -/
theorem c6_bundle_counterexample :
    resolveBundleSearchScenes none NumBands.eight_bands 2020 = "analytic_sr_udm2"
    ∧ "analytic_sr_udm2" ≠ "ortho_analytic_4b_sr"
    ∧ crosswalkBundle "custom_bundle" = "custom_bundle" := by
  exact ⟨by decide, by decide, by decide⟩

/-- C8: a batch row whose start or end date fails to parse is skipped with
a warning without aborting the batch — removing the malformed row from the
input leaves the prepared order units unchanged, the row is recorded as
skipped, and every unit of every other row is still attempted; in
particular, with three rows of which only the middle one is malformed,
exactly the units of rows one and three are prepared. -/
theorem c8_batch_rows (mm : Nat) (pre post : List BatchRow) (bad : BatchRow)
    (hbad : parseDateStr bad.start_s = none ∨ parseDateStr bad.end_s = none) :
    prepare_batch_orders mm (pre ++ bad :: post) = prepare_batch_orders mm (pre ++ post)
    ∧ bad.gage_id ∈ skipped_batch_rows (pre ++ bad :: post)
    ∧ (∀ r ∈ pre ++ post, ∀ u ∈ expandRow mm r,
        u ∈ prepare_batch_orders mm (pre ++ bad :: post))
    ∧ prepare_batch_orders 6
        [⟨"gage1", "2020-01-01", "2020-03-31"⟩, ⟨"gage2", "2020-13-01", "2020-02-01"⟩,
          ⟨"gage3", "2021-05-05", "2021-06-01"⟩]
        = [⟨"gage1", ⟨2020, 1, 1⟩, ⟨2020, 3, 31⟩⟩, ⟨"gage3", ⟨2021, 5, 5⟩, ⟨2021, 6, 1⟩⟩]
    ∧ skipped_batch_rows
        [⟨"gage1", "2020-01-01", "2020-03-31"⟩, ⟨"gage2", "2020-13-01", "2020-02-01"⟩,
          ⟨"gage3", "2021-05-05", "2021-06-01"⟩]
        = ["gage2"] := by
  have hexp : expandRow mm bad = [] := by
    unfold expandRow
    rcases hbad with h | h
    · rw [h]
    · rw [h]
      cases parseDateStr bad.start_s <;> rfl
  refine ⟨?_, ?_, ?_, by decide, by decide⟩
  · unfold prepare_batch_orders
    simp only [List.flatMap_append, List.flatMap_cons, hexp, List.nil_append]
  · unfold skipped_batch_rows
    apply List.mem_map_of_mem
    rw [List.mem_filter]
    refine ⟨List.mem_append_right pre (List.mem_cons_self bad post), ?_⟩
    rcases hbad with h | h <;> simp [h]
  · intro r hr u hu
    unfold prepare_batch_orders
    rw [List.mem_flatMap]
    refine ⟨r, ?_, hu⟩
    rcases List.mem_append.mp hr with h | h
    · exact List.mem_append_left _ h
    · exact List.mem_append_right _ (List.mem_cons_of_mem bad h)

/-- Witness: C8 applied to the spec's three-row example. -/
theorem c8_batch_rows_witness :
    prepare_batch_orders 6
        [⟨"gage1", "2020-01-01", "2020-03-31"⟩, ⟨"gage2", "2020-13-01", "2020-02-01"⟩,
          ⟨"gage3", "2021-05-05", "2021-06-01"⟩]
      = prepare_batch_orders 6
          [⟨"gage1", "2020-01-01", "2020-03-31"⟩, ⟨"gage3", "2021-05-05", "2021-06-01"⟩] :=
  (c8_batch_rows 6 [⟨"gage1", "2020-01-01", "2020-03-31"⟩]
      [⟨"gage3", "2021-05-05", "2021-06-01"⟩] ⟨"gage2", "2020-13-01", "2020-02-01"⟩
      (Or.inl (by decide))).1

/-- C9 (amended): log_order and the check_order_status lookup treat a
corrupt ledger as empty and continue — appending to a corrupt (or missing)
ledger succeeds starting from an empty list, and the single-order status
path proceeds with default metadata — but batch_check_status does not: it
reports a read error and returns early instead of treating the corrupt
ledger as empty. -/
theorem c9_corrupt_ledger (entry : OrderLogEntry) (l : List OrderLogEntry) (oid : String) :
    log_order LedgerFile.corrupt entry = [entry]
    ∧ log_order LedgerFile.absent entry = [entry]
    ∧ log_order (LedgerFile.wellFormed l) entry = l ++ [entry]
    ∧ check_order_status_meta LedgerFile.corrupt oid
        = ⟨"UnknownAOI", "UnknownMosaic", "Unknown", "four_bands", none⟩
    ∧ batch_check_status_read LedgerFile.corrupt = .error "Error reading orders.json"
    ∧ batch_check_status_read LedgerFile.corrupt ≠ batch_check_status_read (.wellFormed []) := by
  exact ⟨rfl, rfl, rfl, rfl, rfl, by simp [batch_check_status_read]⟩

/-- C9 counterexample: batch_check_status, an operation that reads the
order ledger, reacts to malformed ledger content with an error return
whose outcome differs from the empty-ledger outcome — the corrupt ledger
is not treated as an empty ledger by every ledger-reading operation. -/
theorem c9_corrupt_ledger_counterexample :
    batch_check_status_read LedgerFile.corrupt = .error "Error reading orders.json"
    ∧ batch_check_status_read (LedgerFile.wellFormed []) = .ok []
    ∧ batch_check_status_read LedgerFile.corrupt ≠ batch_check_status_read (.wellFormed []) := by
  exact ⟨rfl, rfl, by simp [batch_check_status_read]⟩
